import Mathlib

/-!
Verification of the BudgetBasket repository (BudgetBasket_ATMEGA_V1.ino,
scanner node, and BudgetBasket_ESP_V1.ino, server node) against its
natural-language specification.

The embedding models strings as `List Char`, Arduino `int`/`long` as `ℤ`,
`unsigned long` timestamps as `ℕ` with 32-bit wraparound subtraction, and
`float` amounts as `ℚ` (finite values), with the IEEE special values that
arise from division by zero modeled explicitly by `FpVal`.
-/

namespace BudgetBasket

/-! ## Decimal digits and number formatting

Models Arduino's `String(int)` / `String(float)` (two decimal places) and
the character classification used by `String::toInt` / `String::toFloat`
(which call `atol` / `atof`: skip leading whitespace, optional sign,
leading digits). -/

/-- The decimal digit characters, as produced when printing a number. -/
def digitChar (d : ℕ) : Char :=
  if d = 0 then '0' else if d = 1 then '1' else if d = 2 then '2'
  else if d = 3 then '3' else if d = 4 then '4' else if d = 5 then '5'
  else if d = 6 then '6' else if d = 7 then '7' else if d = 8 then '8'
  else '9'

/-- Numeric value of a digit character (`c - '0'`, as in `atol`). -/
def digitVal (c : Char) : ℕ := c.toNat - 48

/-- `isdigit` from ctype: `'0' ≤ c ≤ '9'`. -/
def isDigitC (c : Char) : Bool := 48 ≤ c.toNat && c.toNat ≤ 57

/-- `isspace` from ctype, used by `atol`/`atof` to skip leading whitespace. -/
def isWs (c : Char) : Bool :=
  c.toNat == 32 || c.toNat == 9 || c.toNat == 10 ||
  c.toNat == 13 || c.toNat == 11 || c.toNat == 12

/-- Decimal rendering of a natural number, most significant digit first
(the digit expansion of Arduino's `String(unsigned)`). -/
def natToChars (n : ℕ) : List Char :=
  if n = 0 then ['0'] else (Nat.digits 10 n).reverse.map digitChar

/-- Decimal rendering of an integer: Arduino's `String(int)`. -/
def intToChars (z : ℤ) : List Char :=
  if z < 0 then '-' :: natToChars z.natAbs else natToChars z.natAbs

/-- Value of a digit string, accumulated left to right as `atol` does. -/
def parseNat (l : List Char) : ℕ := l.foldl (fun a c => 10 * a + digitVal c) 0

/-- Skip leading whitespace (the first phase of `atol`/`atof`). -/
def skipWs : List Char → List Char
  | [] => []
  | c :: r => if isWs c then skipWs r else c :: r

/-- Optional leading sign (second phase of `atol`/`atof`): returns
(negative?, remaining characters). -/
def signSplit (s : List Char) : Bool × List Char :=
  match s with
  | [] => (false, [])
  | c :: r => if c = '-' then (true, r) else if c = '+' then (false, r) else (false, c :: r)

/-- Arduino `String::toInt` (`atol`): whitespace, sign, leading digits;
anything after the digits is ignored; no digits parses as 0. -/
def toIntArduino (s : List Char) : ℤ :=
  let s1 := skipWs s
  let sg := signSplit s1
  let mag : ℤ := parseNat (sg.2.takeWhile isDigitC)
  if sg.1 then -mag else mag

/-- Fractional digits after a decimal point, if the remaining text starts
with `'.'` (part of `atof`; exponent notation never occurs on this wire
format and is not modeled). -/
def fracPart (l : List Char) : List Char :=
  match l with
  | [] => []
  | c :: r => if c = '.' then r.takeWhile isDigitC else []

/-- Arduino `String::toFloat` (`atof`): whitespace, sign, integer digits,
optional `'.'` and fraction digits. -/
def toFloatArduino (s : List Char) : ℚ :=
  let s1 := skipWs s
  let sg := signSplit s1
  let intDigits := sg.2.takeWhile isDigitC
  let rest := sg.2.dropWhile isDigitC
  let fracDigits := fracPart rest
  let mag : ℚ := (parseNat intDigits : ℚ) + (parseNat fracDigits : ℚ) / 10 ^ fracDigits.length
  if sg.1 then -mag else mag

/-- The number of cents printed by Arduino's `String(float)` /
`Print::print(float)` with the default two decimal places (rounding half
away from zero, as the AVR/ESP print routines do). -/
def centsOf (q : ℚ) : ℤ :=
  if q < 0 then -⌊-q * 100 + 1 / 2⌋ else ⌊q * 100 + 1 / 2⌋

/-- The last two (fractional) digits of a two-decimal rendering. -/
def twoDigits (r : ℕ) : List Char := [digitChar (r / 10), digitChar (r % 10)]

/-- Arduino `String(float)`: sign, integer part, `'.'`, exactly two
fraction digits. -/
def renderFloat2 (q : ℚ) : List Char :=
  let c := centsOf q
  let a := c.natAbs
  (if c < 0 then ['-'] else []) ++ natToChars (a / 100) ++ '.' :: twoDigits (a % 100)

/-! ### Digit lemmas -/

theorem digitChar_isDigit (d : ℕ) : isDigitC (digitChar d) = true := by
  unfold digitChar
  split_ifs <;> decide

theorem digitVal_digitChar (d : ℕ) (hd : d < 10) : digitVal (digitChar d) = d := by
  unfold digitChar
  split_ifs with h0 h1 h2 h3 h4 h5 h6 h7 h8
  · subst h0; decide
  · subst h1; decide
  · subst h2; decide
  · subst h3; decide
  · subst h4; decide
  · subst h5; decide
  · subst h6; decide
  · subst h7; decide
  · subst h8; decide
  · have h9 : d = 9 := by omega
    subst h9; decide

theorem digitChar_ne_semi (d : ℕ) : digitChar d ≠ ';' := by
  unfold digitChar; split_ifs <;> decide

theorem digitChar_ne_comma (d : ℕ) : digitChar d ≠ ',' := by
  unfold digitChar; split_ifs <;> decide

theorem natToChars_ne_nil (n : ℕ) : natToChars n ≠ [] := by
  unfold natToChars
  split_ifs with h
  · simp
  · simp [Nat.digits_ne_nil_iff_ne_zero, h]

theorem natToChars_all_digit (n : ℕ) : ∀ c ∈ natToChars n, isDigitC c = true := by
  unfold natToChars
  split_ifs with h
  · intro c hc; simp at hc; subst hc; decide
  · intro c hc
    simp only [List.mem_map, List.mem_reverse] at hc
    obtain ⟨d, _, rfl⟩ := hc
    exact digitChar_isDigit d

theorem not_ws_of_digit (c : Char) (h : isDigitC c = true) : isWs c = false := by
  unfold isDigitC at h
  unfold isWs
  simp only [Bool.and_eq_true, decide_eq_true_eq] at h
  simp only [Bool.or_eq_false_iff, beq_eq_false_iff_ne, ne_eq]
  omega

theorem ne_minus_of_digit (c : Char) (h : isDigitC c = true) : c ≠ '-' := by
  intro hc; subst hc; simp [isDigitC] at h

theorem ne_plus_of_digit (c : Char) (h : isDigitC c = true) : c ≠ '+' := by
  intro hc; subst hc; simp [isDigitC] at h

theorem semi_not_digit : isDigitC ';' = false := by decide

theorem comma_not_digit : isDigitC ',' = false := by decide

theorem not_mem_of_all_digit {l : List Char} {c : Char}
    (hall : ∀ x ∈ l, isDigitC x = true) (hc : isDigitC c = false) : c ∉ l := by
  intro hmem
  have := hall c hmem
  rw [this] at hc
  exact absurd hc (by decide)

/-! ### takeWhile / dropWhile / skipWs over digit strings -/

theorem takeWhile_append_all {p : Char → Bool} :
    ∀ (l r : List Char), (∀ c ∈ l, p c = true) →
      (l ++ r).takeWhile p = l ++ r.takeWhile p := by
  intro l
  induction l with
  | nil => intro r _; simp
  | cons c t ih =>
    intro r h
    have hc : p c = true := h c (List.mem_cons_self c t)
    simp only [List.cons_append, List.takeWhile_cons, hc, if_true]
    rw [ih r (fun x hx => h x (List.mem_cons_of_mem c hx))]

theorem dropWhile_append_all {p : Char → Bool} :
    ∀ (l r : List Char), (∀ c ∈ l, p c = true) →
      (l ++ r).dropWhile p = r.dropWhile p := by
  intro l
  induction l with
  | nil => intro r _; simp
  | cons c t ih =>
    intro r h
    have hc : p c = true := h c (List.mem_cons_self c t)
    simp only [List.cons_append, List.dropWhile_cons, hc]
    exact ih r (fun x hx => h x (List.mem_cons_of_mem c hx))

theorem takeWhile_all {p : Char → Bool} (l : List Char) (h : ∀ c ∈ l, p c = true) :
    l.takeWhile p = l := by
  have := takeWhile_append_all l [] h
  simpa using this

theorem skipWs_cons_not_ws (c : Char) (r : List Char) (h : isWs c = false) :
    skipWs (c :: r) = c :: r := by
  simp [skipWs, h]

theorem skipWs_of_head_digit (c : Char) (r : List Char) (h : isDigitC c = true) :
    skipWs (c :: r) = c :: r :=
  skipWs_cons_not_ws c r (not_ws_of_digit c h)

theorem signSplit_cons (c : Char) (r : List Char) :
    signSplit (c :: r) =
      if c = '-' then (true, r) else if c = '+' then (false, r) else (false, c :: r) := rfl

theorem signSplit_of_head_digit (c : Char) (r : List Char) (h : isDigitC c = true) :
    signSplit (c :: r) = (false, c :: r) := by
  rw [signSplit_cons,
    if_neg (ne_minus_of_digit c h), if_neg (ne_plus_of_digit c h)]

/-! ### parseNat round trips -/

theorem parseNat_map_digitChar (ds : List ℕ) (h : ∀ d ∈ ds, d < 10) :
    parseNat (ds.map digitChar) = ds.foldl (fun a d => 10 * a + d) 0 := by
  unfold parseNat
  suffices H : ∀ (acc : ℕ), ∀ (l : List ℕ), (∀ d ∈ l, d < 10) →
      (l.map digitChar).foldl (fun a c => 10 * a + digitVal c) acc =
        l.foldl (fun a d => 10 * a + d) acc by
    exact H 0 ds h
  intro acc l
  induction l generalizing acc with
  | nil => intro _; simp
  | cons d t ih =>
    intro hl
    simp only [List.map_cons, List.foldl_cons]
    rw [digitVal_digitChar d (hl d (List.mem_cons_self d t))]
    exact ih _ (fun x hx => hl x (List.mem_cons_of_mem d hx))

theorem foldl_digits_eq_ofDigits (l : List ℕ) :
    l.foldl (fun a d => 10 * a + d) 0 = Nat.ofDigits 10 l.reverse := by
  suffices H : ∀ (acc : ℕ),
      l.foldl (fun a d => 10 * a + d) acc = acc * 10 ^ l.length + Nat.ofDigits 10 l.reverse by
    simpa using H 0
  induction l with
  | nil => intro acc; simp [Nat.ofDigits]
  | cons d t ih =>
    intro acc
    simp only [List.foldl_cons, List.length_cons, List.reverse_cons]
    rw [ih (10 * acc + d)]
    rw [Nat.ofDigits_append]
    simp [Nat.ofDigits, pow_succ]
    ring

theorem parseNat_natToChars (n : ℕ) : parseNat (natToChars n) = n := by
  unfold natToChars
  split_ifs with h
  · subst h; decide
  · rw [parseNat_map_digitChar _ (fun d hd => Nat.digits_lt_base (by norm_num) (List.mem_reverse.mp hd))]
    rw [foldl_digits_eq_ofDigits]
    rw [List.reverse_reverse]
    exact Nat.ofDigits_digits 10 n

/-- A bare digit string parses back to its value under `String::toInt`. -/
theorem toIntArduino_natToChars (n : ℕ) : toIntArduino (natToChars n) = n := by
  obtain ⟨c, r, hcr⟩ : ∃ c r, natToChars n = c :: r := by
    cases hn : natToChars n with
    | nil => exact absurd hn (natToChars_ne_nil n)
    | cons c r => exact ⟨c, r, rfl⟩
  have hdig : ∀ x ∈ natToChars n, isDigitC x = true := natToChars_all_digit n
  have hc : isDigitC c = true := hdig c (by rw [hcr]; exact List.mem_cons_self c r)
  simp only [toIntArduino, hcr, skipWs_of_head_digit c r hc, signSplit_of_head_digit c r hc]
  rw [takeWhile_all (c :: r) (by rw [← hcr]; exact hdig)]
  rw [← hcr, parseNat_natToChars]
  simp

/-- `String::toInt` inverts `String(int)`. -/
theorem toIntArduino_intToChars (z : ℤ) : toIntArduino (intToChars z) = z := by
  unfold intToChars
  split_ifs with h
  · obtain ⟨c, r, hcr⟩ : ∃ c r, natToChars z.natAbs = c :: r := by
      cases hn : natToChars z.natAbs with
      | nil => exact absurd hn (natToChars_ne_nil _)
      | cons c r => exact ⟨c, r, rfl⟩
    have hdig : ∀ x ∈ natToChars z.natAbs, isDigitC x = true := natToChars_all_digit _
    have hc : isDigitC c = true := hdig c (by rw [hcr]; exact List.mem_cons_self c r)
    have hsw : skipWs ('-' :: natToChars z.natAbs) = '-' :: natToChars z.natAbs :=
      skipWs_cons_not_ws _ _ (by decide)
    have hss : signSplit ('-' :: natToChars z.natAbs) = (true, natToChars z.natAbs) := by
      rw [signSplit_cons]; simp
    simp only [toIntArduino, hsw, hss]
    rw [takeWhile_all _ hdig, parseNat_natToChars, if_pos trivial]
    omega
  · rw [toIntArduino_natToChars]
    omega

/-! ### Two-decimal float round trip -/

theorem fracPart_cons (c : Char) (r : List Char) :
    fracPart (c :: r) = if c = '.' then r.takeWhile isDigitC else [] := rfl

theorem twoDigits_all_digit (r : ℕ) : ∀ c ∈ twoDigits r, isDigitC c = true := by
  intro c hc
  simp only [twoDigits, List.mem_cons, List.not_mem_nil, or_false] at hc
  rcases hc with h | h <;> (subst h; exact digitChar_isDigit _)

theorem parseNat_twoDigits (r : ℕ) (hr : r < 100) : parseNat (twoDigits r) = r := by
  have h1 : r / 10 < 10 := by omega
  have h2 : r % 10 < 10 := by omega
  simp only [twoDigits, parseNat, List.foldl_cons, List.foldl_nil]
  rw [digitVal_digitChar _ h1, digitVal_digitChar _ h2]
  omega

theorem centsOf_intCast_div (z : ℤ) : centsOf ((z : ℚ) / 100) = z := by
  have h12 : ⌊(1 / 2 : ℚ)⌋ = 0 := by
    apply Int.floor_eq_zero_iff.mpr
    rw [Set.mem_Ico]
    norm_num
  have hfloor : ∀ w : ℤ, ⌊((w : ℚ) / 100) * 100 + 1 / 2⌋ = w := by
    intro w
    rw [show ((w : ℚ) / 100) * 100 + 1 / 2 = 1 / 2 + (w : ℚ) by ring]
    rw [Int.floor_add_int, h12]
    omega
  unfold centsOf
  split_ifs with h
  · rw [show -((z : ℚ) / 100) = ((-z : ℤ) : ℚ) / 100 by push_cast; ring]
    rw [hfloor (-z)]
    omega
  · exact hfloor z

/-- Magnitude of the unsigned text `<digits>.<d><d>` under `atof`. -/
theorem toFloat_unsigned_aux (n r : ℕ) (hr : r < 100) :
    (parseNat ((natToChars n ++ '.' :: twoDigits r).takeWhile isDigitC) : ℚ) +
      (parseNat (fracPart ((natToChars n ++ '.' :: twoDigits r).dropWhile isDigitC)) : ℚ) /
        10 ^ (fracPart ((natToChars n ++ '.' :: twoDigits r).dropWhile isDigitC)).length
      = (n : ℚ) + (r : ℚ) / 100 := by
  rw [takeWhile_append_all _ _ (natToChars_all_digit n)]
  rw [dropWhile_append_all _ _ (natToChars_all_digit n)]
  rw [List.takeWhile_cons, List.dropWhile_cons]
  norm_num [show isDigitC '.' = false from by decide]
  rw [fracPart_cons, if_pos rfl]
  rw [takeWhile_all _ (twoDigits_all_digit r)]
  rw [parseNat_natToChars, parseNat_twoDigits r hr]
  simp [twoDigits]
  norm_num

theorem natToChars_head_digit (n : ℕ) :
    ∃ c t, natToChars n = c :: t ∧ isDigitC c = true := by
  cases hn : natToChars n with
  | nil => exact absurd hn (natToChars_ne_nil n)
  | cons c t =>
    refine ⟨c, t, rfl, ?_⟩
    exact natToChars_all_digit n c (by rw [hn]; exact List.mem_cons_self c t)

/-- `String::toFloat` inverts the two-decimal `String(float)` rendering at
any amount that is a whole number of cents. -/
theorem toFloat_renderFloat2 (z : ℤ) :
    toFloatArduino (renderFloat2 ((z : ℚ) / 100)) = (z : ℚ) / 100 := by
  simp only [renderFloat2, centsOf_intCast_div z]
  have hmod : z.natAbs % 100 < 100 := Nat.mod_lt _ (by norm_num)
  have key := toFloat_unsigned_aux (z.natAbs / 100) (z.natAbs % 100) hmod
  have habs : ((z.natAbs / 100 : ℕ) : ℚ) + ((z.natAbs % 100 : ℕ) : ℚ) / 100 =
      ((z.natAbs : ℕ) : ℚ) / 100 := by
    have : (z.natAbs : ℚ) = ((z.natAbs / 100 : ℕ) : ℚ) * 100 + ((z.natAbs % 100 : ℕ) : ℚ) := by
      exact_mod_cast (by omega : z.natAbs = z.natAbs / 100 * 100 + z.natAbs % 100)
    rw [this]; ring
  obtain ⟨c, t, hct, hc⟩ := natToChars_head_digit (z.natAbs / 100)
  split_ifs with hz
  · -- negative amount: leading '-'
    simp only [List.singleton_append, List.cons_append, List.nil_append]
    have hsw : skipWs ('-' :: (natToChars (z.natAbs / 100) ++ '.' :: twoDigits (z.natAbs % 100)))
        = '-' :: (natToChars (z.natAbs / 100) ++ '.' :: twoDigits (z.natAbs % 100)) :=
      skipWs_cons_not_ws _ _ (by decide)
    have hss : signSplit ('-' :: (natToChars (z.natAbs / 100) ++ '.' :: twoDigits (z.natAbs % 100)))
        = (true, natToChars (z.natAbs / 100) ++ '.' :: twoDigits (z.natAbs % 100)) := by
      rw [signSplit_cons]; simp
    simp only [toFloatArduino, hsw, hss]
    rw [if_pos trivial]
    rw [key, habs]
    have hcast : ((z.natAbs : ℕ) : ℚ) = -(z : ℚ) := by
      rw [Int.cast_natAbs, Int.cast_abs]
      have hz' : (z : ℚ) < 0 := by exact_mod_cast hz
      exact abs_of_neg hz'
    rw [hcast]; ring
  · -- non-negative amount
    simp only [List.nil_append]
    rw [hct]
    have hsw := skipWs_of_head_digit c (t ++ '.' :: twoDigits (z.natAbs % 100)) hc
    have hss := signSplit_of_head_digit c (t ++ '.' :: twoDigits (z.natAbs % 100)) hc
    simp only [List.cons_append] at hsw hss ⊢
    simp only [toFloatArduino, hsw, hss]
    rw [if_neg (by simp)]
    rw [show (c :: (t ++ '.' :: twoDigits (z.natAbs % 100)))
        = natToChars (z.natAbs / 100) ++ '.' :: twoDigits (z.natAbs % 100) by rw [hct]; rfl]
    rw [key, habs]
    have hcast : ((z.natAbs : ℕ) : ℚ) = (z : ℚ) := by
      rw [Int.cast_natAbs, Int.cast_abs]
      have hz' : (0 : ℚ) ≤ (z : ℚ) := by exact_mod_cast not_lt.mp hz
      exact abs_of_nonneg hz'
    rw [hcast]

theorem toFloat_cons_space (l : List Char) :
    toFloatArduino (' ' :: l) = toFloatArduino l := by
  simp only [toFloatArduino, skipWs, show isWs ' ' = true from by decide, if_true]

/-! ## String search and splitting primitives

`List Char` counterparts of the Arduino `String` methods the codec uses:
`indexOf(char)`, `lastIndexOf(char)`, `indexOf(str)`, `lastIndexOf(str)`,
and the `while (sepPos != -1)` splitting loop of `formatItemLines`.
`Option ℕ` stands for the `int` result with `-1` encoded as `none`. -/

/-- `String::indexOf(char)`: position of the first occurrence. -/
def indexOf? (c : Char) : List Char → Option ℕ
  | [] => none
  | x :: xs => if x = c then some 0 else (indexOf? c xs).map (· + 1)

/-- `String::lastIndexOf(char)`: position of the last occurrence. -/
def lastIndexOf? (c : Char) : List Char → Option ℕ
  | [] => none
  | x :: xs =>
    match lastIndexOf? c xs with
    | some i => some (i + 1)
    | none => if x = c then some 0 else none

/-- `String::indexOf(str)`: position of the first occurrence of a substring. -/
def indexOfStr (pat : List Char) (s : List Char) : Option ℕ :=
  if pat.isPrefixOf s then some 0
  else
    match s with
    | [] => none
    | _ :: xs => (indexOfStr pat xs).map (· + 1)

/-- `String::lastIndexOf(str)`: position of the last occurrence of a substring. -/
def lastIndexOfStr (pat : List Char) (s : List Char) : Option ℕ :=
  match s with
  | [] => if pat.isPrefixOf [] then some 0 else none
  | _ :: xs =>
    match lastIndexOfStr pat xs with
    | some i => some (i + 1)
    | none => if pat.isPrefixOf s then some 0 else none

/-- The segment-splitting loop of `formatItemLines` (lines 519–533 of the
ESP sketch): repeatedly take the substring up to the next `';'`, then
process the remaining part after the last `';'` only if it is nonempty.
The index arithmetic (`start`, `sepPos`) is replaced by structural
recursion with an accumulator for the current segment. -/
def splitLoopGo (cur : List Char) : List Char → List (List Char)
  | [] => if cur = [] then [] else [cur.reverse]
  | c :: rest => if c = ';' then cur.reverse :: splitLoopGo [] rest else splitLoopGo (c :: cur) rest

def splitLoop (s : List Char) : List (List Char) := splitLoopGo [] s

theorem indexOf?_eq_none (c : Char) (l : List Char) (h : c ∉ l) : indexOf? c l = none := by
  induction l with
  | nil => rfl
  | cons x xs ih =>
    unfold indexOf?
    rw [if_neg (by intro hx; exact h (hx ▸ List.mem_cons_self x xs))]
    rw [ih (fun hx => h (List.mem_cons_of_mem x hx))]
    rfl

theorem indexOf?_append_cons (name rest : List Char) (c : Char) (h : c ∉ name) :
    indexOf? c (name ++ c :: rest) = some name.length := by
  induction name with
  | nil => simp [indexOf?]
  | cons x xs ih =>
    have hx : x ≠ c := by intro hx; exact h (hx ▸ List.mem_cons_self x xs)
    simp only [List.cons_append]
    unfold indexOf?
    rw [if_neg hx, ih (fun hm => h (List.mem_cons_of_mem x hm))]
    rfl

theorem lastIndexOf?_eq_none (c : Char) (l : List Char) (h : c ∉ l) :
    lastIndexOf? c l = none := by
  induction l with
  | nil => rfl
  | cons x xs ih =>
    unfold lastIndexOf?
    rw [ih (fun hx => h (List.mem_cons_of_mem x hx))]
    rw [if_neg (by intro hx; exact h (hx ▸ List.mem_cons_self x xs))]

theorem lastIndexOf?_append_cons (a b : List Char) (c : Char) (h : c ∉ b) :
    lastIndexOf? c (a ++ c :: b) = some a.length := by
  induction a with
  | nil =>
    simp only [List.nil_append]
    unfold lastIndexOf?
    rw [lastIndexOf?_eq_none c b h, if_pos rfl]
    rfl
  | cons x xs ih =>
    simp only [List.cons_append]
    unfold lastIndexOf?
    rw [ih]
    rfl

theorem indexOfStr_of_isPrefixOf (pat s : List Char) (h : pat.isPrefixOf s = true) :
    indexOfStr pat s = some 0 := by
  unfold indexOfStr
  rw [if_pos h]

theorem lastIndexOfStr_isPrefixOf_drop (pat : List Char) :
    ∀ (s : List Char) (p : ℕ), lastIndexOfStr pat s = some p →
      pat.isPrefixOf (s.drop p) = true := by
  intro s
  induction s with
  | nil =>
    intro p hp
    unfold lastIndexOfStr at hp
    split_ifs at hp with h
    cases hp; simpa using h
  | cons x xs ih =>
    intro p hp
    unfold lastIndexOfStr at hp
    cases hrec : lastIndexOfStr pat xs with
    | some i =>
      rw [hrec] at hp
      cases hp
      exact ih i hrec
    | none =>
      rw [hrec] at hp
      split_ifs at hp with h
      cases hp
      simpa using h

theorem splitLoopGo_nil (cur : List Char) :
    splitLoopGo cur [] = if cur = [] then [] else [cur.reverse] := rfl

theorem splitLoopGo_cons (cur : List Char) (c : Char) (rest : List Char) :
    splitLoopGo cur (c :: rest) =
      if c = ';' then cur.reverse :: splitLoopGo [] rest
      else splitLoopGo (c :: cur) rest := rfl

/-- Splitting a string whose head segment ends at an explicit `';'`. -/
theorem splitLoopGo_append_semi (x : List Char) (hx : ';' ∉ x) :
    ∀ (cur r : List Char),
      splitLoopGo cur (x ++ ';' :: r) = (cur.reverse ++ x) :: splitLoopGo [] r := by
  induction x with
  | nil =>
    intro cur r
    simp [splitLoopGo_cons]
  | cons c t ih =>
    intro cur r
    have hc : c ≠ ';' := by intro h; exact hx (h ▸ List.mem_cons_self c t)
    simp only [List.cons_append, splitLoopGo_cons, if_neg hc]
    rw [ih (fun hm => hx (List.mem_cons_of_mem c hm)) (c :: cur) r]
    simp

/-- Splitting a semicolon-free string yields it as the single residual
segment (or nothing if it is empty). -/
theorem splitLoopGo_no_semi (x : List Char) (hx : ';' ∉ x) :
    ∀ (cur : List Char),
      splitLoopGo cur x = if cur.reverse ++ x = [] then [] else [cur.reverse ++ x] := by
  induction x with
  | nil =>
    intro cur
    rw [splitLoopGo_nil, List.append_nil]
    rcases h : cur.reverse with _ | ⟨y, ys⟩
    · simp [List.reverse_eq_nil_iff.mp h]
    · have : cur ≠ [] := by
        intro hnil; rw [hnil] at h; simp at h
      simp [this, h]
  | cons c t ih =>
    intro cur
    have hc : c ≠ ';' := by intro h; exact hx (h ▸ List.mem_cons_self c t)
    rw [splitLoopGo_cons, if_neg hc]
    rw [ih (fun hm => hx (List.mem_cons_of_mem c hm)) (c :: cur)]
    simp

/-- The full splitting loop over `<seg1>;<seg2>;...;<tail>`. -/
theorem splitLoop_segments (bs : List (List Char)) (t : List Char)
    (hbs : ∀ b ∈ bs, ';' ∉ b) (ht : ';' ∉ t) (htne : t ≠ []) :
    splitLoop ((bs.map (· ++ [';'])).flatten ++ t) = bs ++ [t] := by
  induction bs with
  | nil =>
    simp only [List.map_nil, List.flatten_nil, List.nil_append]
    unfold splitLoop
    rw [splitLoopGo_no_semi t ht []]
    simp [htne]
  | cons b bs ih =>
    have hb : ';' ∉ b := hbs b (List.mem_cons_self b bs)
    simp only [List.map_cons, List.flatten_cons, List.append_assoc]
    unfold splitLoop
    rw [show b ++ ([';'] ++ ((bs.map (· ++ [';'])).flatten ++ t))
        = b ++ ';' :: ((bs.map (· ++ [';'])).flatten ++ t) by simp]
    rw [splitLoopGo_append_semi b hb [] _]
    simp only [List.reverse_nil, List.nil_append]
    rw [show splitLoopGo [] ((bs.map (· ++ [';'])).flatten ++ t)
        = splitLoop ((bs.map (· ++ [';'])).flatten ++ t) from rfl]
    rw [ih (fun x hx => hbs x (List.mem_cons_of_mem b hx))]
    rfl

/-! ## Scanner node (BudgetBasket_ATMEGA_V1.ino)

Catalog (lines 47–55): item names, unit prices and RFID tag bytes.
`float` prices are exact small integers, modeled in `ℚ`; `int` counters
are modeled in `ℤ`. -/

abbrev numItems : ℕ := 4

def itemNames : Fin numItems → List Char :=
  !["Milk".data, "Egg".data, "Butter".data, "Chocolate".data]

def itemPrices : Fin numItems → ℚ := ![7, 25, 18, 20]

def itemUIDs : Fin numItems → Fin 4 → ℕ :=
  ![![0x4A, 0x5C, 0xE2, 0x17], ![0x3A, 0x64, 0xD2, 0x12],
    ![0x92, 0x9A, 0x84, 0x51], ![0x60, 0x62, 0x9D, 0x55]]

/-- Mutable globals of the scanner sketch (lines 54–61). `inRemoveMode`
is the Mode state machine: `false` = Add, `true` = Remove. LCD/LED/buzzer
outputs are excluded I/O and not part of the state. -/
structure AtmegaState where
  itemCounts : Fin numItems → ℤ
  totalPrice : ℚ
  budget : ℚ
  inRemoveMode : Bool
  buttonPressedTime : ℕ

/-- Global initialization: zeroed counters, prices and budget, Add mode. -/
def initialAtmegaState : AtmegaState :=
  { itemCounts := fun _ => 0, totalPrice := 0, budget := 0,
    inRemoveMode := false, buttonPressedTime := 0 }

/-- Reported scan outcomes (the feedback paths of the sketch): spec names
the last two `EmptyRemoval` and `UnknownItem`. -/
inductive ScanEvent where
  | itemAdded
  | itemRemoved
  | emptyRemoval
  | unknownItem
  deriving DecidableEq

/-- The exact weighted sum `Σ price·count` computed by `updateTotal`
(lines 187–192), which loops over all items and accumulates afresh. -/
def cartTotal (counts : Fin numItems → ℤ) : ℚ :=
  ∑ i, itemPrices i * (counts i : ℚ)

/-- `updateTotal` (lines 187–192): recompute `totalPrice` by full summation. -/
def updateTotal (s : AtmegaState) : AtmegaState :=
  { s with totalPrice := cartTotal s.itemCounts }

def updateTag : List Char := "Update:".data

def totalTag : List Char := "Total,".data

/-- `sendStatusToESP` (lines 195–204): the frame text
`Update:<name>,<qty>;...;Total,<amount>` built by the loop; items with
`itemCounts[i] > 0` only, in catalog order, then the total. -/
def sendStatusToESP (itemCounts : Fin numItems → ℤ) (totalPrice : ℚ) : List Char :=
  let d1 := (List.finRange numItems).foldl
    (fun d i => if 0 < itemCounts i
      then d ++ (itemNames i ++ ',' :: intToChars (itemCounts i) ++ [';'])
      else d) updateTag
  d1 ++ (totalTag ++ renderFloat2 totalPrice)

/-- `addItem` (lines 163–169): increment, recompute total, send the frame. -/
def addItem (s : AtmegaState) (index : Fin numItems) :
    AtmegaState × Option (List Char) × ScanEvent :=
  let s1 := { s with itemCounts := Function.update s.itemCounts index (s.itemCounts index + 1) }
  let s2 := updateTotal s1
  (s2, some (sendStatusToESP s2.itemCounts s2.totalPrice), .itemAdded)

/-- `removeItem` (lines 171–184): decrement only when the count is
positive, otherwise report the empty-removal condition and change
nothing; either way leave Remove mode. -/
def removeItem (s : AtmegaState) (index : Fin numItems) :
    AtmegaState × Option (List Char) × ScanEvent :=
  if 0 < s.itemCounts index then
    let s1 := { s with itemCounts := Function.update s.itemCounts index (s.itemCounts index - 1) }
    let s2 := updateTotal s1
    ({ s2 with inRemoveMode := false },
     some (sendStatusToESP s2.itemCounts s2.totalPrice), .itemRemoved)
  else
    ({ s with inRemoveMode := false }, none, .emptyRemoval)

/-- `identifyItem` (lines 222–235): first catalog index whose four UID
bytes all match; the `-1` result is `none`. -/
def identifyItem (id : Fin 4 → ℕ) : Option (Fin numItems) :=
  (List.finRange numItems).find? (fun i => decide (∀ j : Fin 4, id j = itemUIDs i j))

/-- `processCard` (lines 145–161): a recognized tag is added or removed
according to the mode; an unrecognized tag only triggers feedback. -/
def processCard (s : AtmegaState) (id : Fin 4 → ℕ) :
    AtmegaState × Option (List Char) × ScanEvent :=
  match identifyItem id with
  | some index => if s.inRemoveMode then removeItem s index else addItem s index
  | none => (s, none, .unknownItem)

/-- Remove-mode dwell time in milliseconds (line 268: `> 5000`). -/
def DWELL_MS : ℕ := 5000

/-- `unsigned long` subtraction `a - b` modulo 2^32, as in
`millis() - buttonPressedTime`. -/
def usub32 (a b : ℕ) : ℕ := (a % 2 ^ 32 + 2 ^ 32 - b % 2 ^ 32) % 2 ^ 32

/-- `checkButton` (lines 254–273): a pressed button enters Remove mode
(only when not already in it) and records the time; then, whenever the
dwell timeout has elapsed, Remove mode reverts to Add. -/
def checkButton (s : AtmegaState) (buttonLow : Bool) (now : ℕ) : AtmegaState :=
  let s1 := if buttonLow && !s.inRemoveMode
    then { s with inRemoveMode := true, buttonPressedTime := now } else s
  if s1.inRemoveMode && decide (DWELL_MS < usub32 now s1.buttonPressedTime)
    then { s1 with inRemoveMode := false } else s1

/-- Scanner `loop` handling of one complete line from the ESP (lines
117–131): a line starting with `Budget:` overwrites the stored budget
with `toFloat` of the rest; `LowBudget`/`NoBudget` only drive LED and
buzzer feedback (excluded) and leave the modeled state unchanged.
Line-terminator trimming (`readStringUntil`/`trim`) is transport
plumbing and is elided: `line` is the terminator-free payload. -/
def processEspLine (s : AtmegaState) (line : List Char) : AtmegaState :=
  if "Budget:".data.isPrefixOf line then
    { s with budget := toFloatArduino (line.drop 7) }
  else s

/-- A ledger mutation: one recognized scan in Add or Remove mode. -/
inductive CartOp where
  | add (i : Fin numItems)
  | remove (i : Fin numItems)

def applyCartOp (s : AtmegaState) (op : CartOp) : AtmegaState :=
  match op with
  | .add i => (addItem s i).1
  | .remove i => (removeItem s i).1

def runCartOps (s : AtmegaState) (ops : List CartOp) : AtmegaState :=
  ops.foldl applyCartOp s

/-! ## Server node (BudgetBasket_ESP_V1.ino) -/

/-- `getItemPrice` (lines 565–571): catalog lookup by name; unknown
names price as 0. -/
def getItemPrice (itemName : List Char) : ℚ :=
  if itemName = "Milk".data then 7
  else if itemName = "Egg".data then 25
  else if itemName = "Butter".data then 18
  else if itemName = "Chocolate".data then 20
  else 0

/-- `extractTotalAmount` (lines 496–502): `toFloat` of the text after the
last `Total,` marker; 0.0 when the marker is absent. -/
def extractTotalAmount (data : List Char) : ℚ :=
  match lastIndexOfStr totalTag data with
  | some totalPos => toFloatArduino (data.drop (totalPos + 6))
  | none => 0

/-- `processLine` (lines 544–553): split one `<name>,<qty>` segment at its
first comma; segments without a comma are skipped. The HTML row built
around the pair is display-only and elided — the returned pair is the
(item name, `toInt` of the quantity text) content of the row. -/
def processLinePair (line : List Char) : Option (List Char × ℤ) :=
  match indexOf? ',' line with
  | some commaPos => some (line.take commaPos, toIntArduino (line.drop (commaPos + 1)))
  | none => none

/-- `formatItemLines` (lines 505–541), decoded content: strip the
`Update:` prefix when present, split the text before the last comma into
`;`-separated item segments, and keep the text after the last comma as
the total. When no comma exists, Arduino's `substring(0, -1)` clamps the
out-of-range bound so both parts are the whole string. The HTML framing
is display-only and elided. -/
def itemsAndTotalOf (data : List Char) : List (List Char × ℤ) × List Char :=
  let cleanData := match indexOfStr updateTag data with
    | some updatePos => data.drop (updatePos + 7)
    | none => data
  match lastIndexOf? ',' cleanData with
  | some lastCommaPos =>
      ((splitLoop (cleanData.take lastCommaPos)).filterMap processLinePair,
       cleanData.drop (lastCommaPos + 1))
  | none => ((splitLoop cleanData).filterMap processLinePair, cleanData)

/-! ### Budget classifier (lines 478–494)

`handleItemUpdates` computes `(remainingBudget / totalBudget) * 100` in
IEEE `float` arithmetic with no guard on `totalBudget`; division of a
finite value by zero yields ±∞ (or NaN for 0/0), and every comparison
with NaN is false. `FpVal` models exactly these special values; finite
division is exact in `ℚ`. -/

inductive FpVal where
  | fin (q : ℚ)
  | posInf
  | negInf
  | nan
  deriving DecidableEq

/-- IEEE float division of finite values. -/
def fpDiv (a b : ℚ) : FpVal :=
  if b = 0 then (if a = 0 then .nan else if 0 < a then .posInf else .negInf)
  else .fin (a / b)

/-- Multiplication by a positive finite constant (here 100). -/
def FpVal.scalePos (v : FpVal) (k : ℚ) : FpVal :=
  match v with
  | .fin q => .fin (q * k)
  | .posInf => .posInf
  | .negInf => .negInf
  | .nan => .nan

/-- IEEE comparison `v <= c` with a finite constant. -/
def FpVal.leC : FpVal → ℚ → Bool
  | .fin q, c => decide (q ≤ c)
  | .posInf, _ => false
  | .negInf, _ => true
  | .nan, _ => false

/-- IEEE comparison `v > c` with a finite constant. -/
def FpVal.gtC : FpVal → ℚ → Bool
  | .fin q, c => decide (c < q)
  | .posInf, _ => true
  | .negInf, _ => false
  | .nan, _ => false

/-- `budgetPercentage = (remainingBudget / totalBudget) * 100` (line 485). -/
def budgetPercentage (remainingBudget totalBudget : ℚ) : FpVal :=
  (fpDiv remainingBudget totalBudget).scalePos 100

/-- The spec's Threshold State. -/
inductive ThresholdState where
  | Normal
  | Low
  | Exhausted
  deriving DecidableEq

/-- One-shot threshold frames sent to the scanner. -/
inductive BudgetSignal where
  | lowBudget
  | noBudget
  deriving DecidableEq

/-- The signal branch of `handleItemUpdates` (lines 489–493):
`LowBudget` when `pct <= 20 && pct > 0`, else `NoBudget` when `pct <= 0`,
else nothing. -/
def classifySignal (remainingBudget totalBudget : ℚ) : Option BudgetSignal :=
  let pct := budgetPercentage remainingBudget totalBudget
  if pct.leC 20 && pct.gtC 0 then some .lowBudget
  else if pct.leC 0 then some .noBudget
  else none

/-- The classifier as a Threshold State: `LowBudget` = Low, `NoBudget` =
Exhausted, no signal = Normal. -/
def classify (remaining budget : ℚ) : ThresholdState :=
  match classifySignal remaining budget with
  | some .lowBudget => .Low
  | some .noBudget => .Exhausted
  | none => .Normal

/-- Budget-related globals of the ESP sketch (lines 397–398). -/
structure EspState where
  totalBudget : ℚ
  remainingBudget : ℚ

/-- `Serial.println(float)` of the percentage on the debug line: finite
values print with two decimals, specials as `inf`/`nan` text. -/
def fpRender (v : FpVal) : List Char :=
  match v with
  | .fin q => renderFloat2 q
  | .posInf => "inf".data
  | .negInf => "-inf".data
  | .nan => "nan".data

/-- `handleItemUpdates` (lines 478–494): extract the scanned total,
update `remainingBudget`, and emit the serial lines sent back to the
scanner: the `Budget: <remaining>` line, the debug percentage line, and
at most one threshold signal. -/
def handleItemUpdates (st : EspState) (data : List Char) :
    EspState × List (List Char) :=
  let totalScannedAmount := extractTotalAmount data
  let remaining := st.totalBudget - totalScannedAmount
  let pct := budgetPercentage remaining st.totalBudget
  let signalLines : List (List Char) :=
    if pct.leC 20 && pct.gtC 0 then ["LowBudget".data]
    else if pct.leC 0 then ["NoBudget".data]
    else []
  ({ st with remainingBudget := remaining },
   ("Budget: ".data ++ renderFloat2 remaining)
     :: ("Budget Percentage: ".data ++ fpRender pct) :: signalLines)

/-! ## Helper lemmas about the model -/

/-- The conditional string-building loop of `sendStatusToESP` equals the
concatenation over the filtered list. -/
theorem foldl_if_append {α : Type} (p : α → Prop) [DecidablePred p] (f : α → List Char) :
    ∀ (l : List α) (acc : List Char),
      l.foldl (fun d i => if p i then d ++ f i else d) acc
        = acc ++ ((l.filter (fun i => decide (p i))).map f).flatten := by
  intro l
  induction l with
  | nil => intro acc; simp
  | cons a t ih =>
    intro acc
    simp only [List.foldl_cons, List.filter_cons]
    by_cases hp : p a
    · rw [if_pos hp, ih]
      simp [hp]
    · rw [if_neg hp, ih]
      simp [hp]

theorem sendStatusToESP_eq (counts : Fin numItems → ℤ) (total : ℚ) :
    sendStatusToESP counts total =
      updateTag ++
        ((((List.finRange numItems).filter (fun i => decide (0 < counts i))).map
          (fun i => itemNames i ++ ',' :: intToChars (counts i) ++ [';'])).flatten ++
        (totalTag ++ renderFloat2 total)) := by
  unfold sendStatusToESP
  rw [foldl_if_append (fun i => 0 < counts i)
    (fun i => itemNames i ++ ',' :: intToChars (counts i) ++ [';'])]
  simp [List.append_assoc]

theorem itemNames_no_comma (i : Fin numItems) : ',' ∉ itemNames i := by
  fin_cases i <;> decide

theorem itemNames_no_semi (i : Fin numItems) : ';' ∉ itemNames i := by
  fin_cases i <;> decide

theorem not_mem_intToChars (z : ℤ) (c : Char)
    (hc : isDigitC c = false) (hm : c ≠ '-') : c ∉ intToChars z := by
  unfold intToChars
  split_ifs
  · intro hmem
    rcases List.mem_cons.mp hmem with h | h
    · exact hm h
    · exact not_mem_of_all_digit (natToChars_all_digit _) hc h
  · exact not_mem_of_all_digit (natToChars_all_digit _) hc

theorem not_mem_renderFloat2 (q : ℚ) (c : Char)
    (hc : isDigitC c = false) (h1 : c ≠ '-') (h2 : c ≠ '.') : c ∉ renderFloat2 q := by
  simp only [renderFloat2, twoDigits]
  intro hmem
  simp only [List.mem_append, List.mem_cons, List.not_mem_nil, or_false] at hmem
  rcases hmem with (h | h) | h | h | h
  · split_ifs at h with hs
    · simp only [List.mem_cons, List.not_mem_nil, or_false] at h
      exact h1 h
    · simp at h
  · exact not_mem_of_all_digit (natToChars_all_digit _) hc h
  · exact h2 h
  · subst h; rw [digitChar_isDigit] at hc; cases hc
  · subst h; rw [digitChar_isDigit] at hc; cases hc

theorem drop_succ_len_append (a : List Char) (c : Char) (b : List Char) :
    (a ++ c :: b).drop (a.length + 1) = b := by
  rw [show a ++ c :: b = (a ++ [c]) ++ b by simp]
  rw [show a.length + 1 = (a ++ [c]).length by simp]
  exact List.drop_left _ _

theorem processLinePair_pair (name digits : List Char) (hname : ',' ∉ name) :
    processLinePair (name ++ ',' :: digits) = some (name, toIntArduino digits) := by
  unfold processLinePair
  rw [indexOf?_append_cons name digits ',' hname]
  simp only [List.take_left, drop_succ_len_append]

theorem filterMap_eq_map_of_some {α β : Type} (f : α → Option β) (g : α → β)
    (l : List α) (h : ∀ a ∈ l, f a = some (g a)) : l.filterMap f = l.map g := by
  induction l with
  | nil => rfl
  | cons a t ih =>
    rw [List.filterMap_cons, h a (List.mem_cons_self a t), List.map_cons,
      ih (fun x hx => h x (List.mem_cons_of_mem a hx))]

theorem cartTotal_eq_int (counts : Fin numItems → ℤ) :
    cartTotal counts =
      ((7 * counts 0 + 25 * counts 1 + 18 * counts 2 + 20 * counts 3 : ℤ) : ℚ) := by
  unfold cartTotal
  rw [Fin.sum_univ_four]
  simp only [itemPrices, Matrix.cons_val_zero, Matrix.cons_val_one, Matrix.head_cons,
    Matrix.cons_val_two, Matrix.tail_cons, Matrix.cons_val_three]
  push_cast
  ring

theorem toFloat_renderFloat2_int (n : ℤ) :
    toFloatArduino (renderFloat2 ((n : ℚ))) = (n : ℚ) := by
  have h := toFloat_renderFloat2 (100 * n)
  rw [show ((100 * n : ℤ) : ℚ) / 100 = (n : ℚ) by push_cast; ring] at h
  exact h

theorem renderFloat2_getLast (q : ℚ) :
    ∃ d, (renderFloat2 q).getLast? = some (digitChar d) := by
  refine ⟨(centsOf q).natAbs % 100 % 10, ?_⟩
  simp only [renderFloat2, twoDigits]
  rw [show (if centsOf q < 0 then ['-'] else []) ++
        natToChars ((centsOf q).natAbs / 100) ++
        '.' :: [digitChar ((centsOf q).natAbs % 100 / 10), digitChar ((centsOf q).natAbs % 100 % 10)]
      = ((if centsOf q < 0 then ['-'] else []) ++
          natToChars ((centsOf q).natAbs / 100) ++
          ['.', digitChar ((centsOf q).natAbs % 100 / 10)]) ++
        [digitChar ((centsOf q).natAbs % 100 % 10)] by simp]
  exact List.getLast?_concat _

/-- Invariant: `totalPrice` always equals the recomputed weighted sum. -/
theorem applyCartOp_add_eq (s : AtmegaState) (i : Fin numItems) :
    applyCartOp s (CartOp.add i) = (addItem s i).1 := rfl

theorem applyCartOp_remove_eq (s : AtmegaState) (i : Fin numItems) :
    applyCartOp s (CartOp.remove i) = (removeItem s i).1 := rfl

theorem applyCartOp_total (s : AtmegaState) (op : CartOp)
    (h : s.totalPrice = cartTotal s.itemCounts) :
    (applyCartOp s op).totalPrice = cartTotal (applyCartOp s op).itemCounts := by
  cases op with
  | add i => rfl
  | remove i =>
    rw [applyCartOp_remove_eq]
    unfold removeItem
    split_ifs with hpos
    · rfl
    · exact h

/-- Invariant: item counters stay non-negative under adds and removes. -/
theorem applyCartOp_nonneg (s : AtmegaState) (op : CartOp)
    (h : ∀ i, 0 ≤ s.itemCounts i) :
    ∀ i, 0 ≤ (applyCartOp s op).itemCounts i := by
  cases op with
  | add j =>
    intro i
    rw [applyCartOp_add_eq]
    unfold addItem updateTotal
    simp only
    by_cases hij : i = j
    · subst hij; rw [Function.update_same]; have := h i; omega
    · rw [Function.update_noteq hij]; exact h i
  | remove j =>
    intro i
    rw [applyCartOp_remove_eq]
    unfold removeItem
    split_ifs with hpos
    · simp only [updateTotal]
      by_cases hij : i = j
      · subst hij; rw [Function.update_same]; omega
      · rw [Function.update_noteq hij]; exact h i
    · exact h i

theorem runCartOps_total (ops : List CartOp) :
    ∀ s : AtmegaState, s.totalPrice = cartTotal s.itemCounts →
      (runCartOps s ops).totalPrice = cartTotal (runCartOps s ops).itemCounts := by
  induction ops with
  | nil => intro s h; exact h
  | cons op t ih =>
    intro s h
    exact ih (applyCartOp s op) (applyCartOp_total s op h)

theorem runCartOps_nonneg (ops : List CartOp) :
    ∀ s : AtmegaState, (∀ i, 0 ≤ s.itemCounts i) →
      ∀ i, 0 ≤ (runCartOps s ops).itemCounts i := by
  induction ops with
  | nil => intro s h; exact h
  | cons op t ih =>
    intro s h
    exact ih (applyCartOp s op) (applyCartOp_nonneg s op h)

theorem itemsAndTotalOf_compute (data cd : List Char) (p q : ℕ)
    (hfind : indexOfStr updateTag data = some p)
    (hcd : data.drop (p + 7) = cd)
    (hlast : lastIndexOf? ',' cd = some q) :
    itemsAndTotalOf data
      = ((splitLoop (cd.take q)).filterMap processLinePair, cd.drop (q + 1)) := by
  simp only [itemsAndTotalOf, hfind, hcd, hlast]

/-- Decoding an encoded frame recovers exactly the encoded (name,
quantity) pairs and the rendered total text, for any items whose names
are free of the two delimiters. -/
theorem itemsAndTotalOf_encoded (items : List (List Char × ℤ)) (q : ℚ)
    (hname : ∀ p ∈ items, ',' ∉ p.1 ∧ ';' ∉ p.1) :
    itemsAndTotalOf (updateTag ++
        ((items.map (fun p => p.1 ++ ',' :: intToChars p.2 ++ [';'])).flatten
          ++ (totalTag ++ renderFloat2 q)))
      = (items, renderFloat2 q) := by
  have hcomma_r : ',' ∉ renderFloat2 q :=
    not_mem_renderFloat2 q ',' (by decide) (by decide) (by decide)
  have hX : (items.map (fun p => p.1 ++ ',' :: intToChars p.2 ++ [';'])).flatten
        ++ (totalTag ++ renderFloat2 q)
      = ((items.map (fun p => p.1 ++ ',' :: intToChars p.2 ++ [';'])).flatten
          ++ "Total".data) ++ ',' :: renderFloat2 q := by
    rw [show totalTag = "Total".data ++ [','] from rfl]
    simp [List.append_assoc]
  rw [hX]
  rw [itemsAndTotalOf_compute _
      (((items.map (fun p => p.1 ++ ',' :: intToChars p.2 ++ [';'])).flatten
          ++ "Total".data) ++ ',' :: renderFloat2 q)
      0
      ((items.map (fun p => p.1 ++ ',' :: intToChars p.2 ++ [';'])).flatten
          ++ "Total".data).length
      (indexOfStr_of_isPrefixOf _ _
        (List.isPrefixOf_iff_prefix.mpr (List.prefix_append _ _)))
      (by rw [show (0 + 7 : ℕ) = updateTag.length from rfl]; exact List.drop_left _ _)
      (lastIndexOf?_append_cons _ _ ',' hcomma_r)]
  rw [List.take_left, drop_succ_len_append]
  have hmapmap : items.map (fun p => p.1 ++ ',' :: intToChars p.2 ++ [';'])
      = (items.map (fun p => p.1 ++ ',' :: intToChars p.2)).map (fun x => x ++ [';']) := by
    rw [List.map_map]
    rfl
  rw [hmapmap]
  rw [splitLoop_segments (items.map (fun p => p.1 ++ ',' :: intToChars p.2)) "Total".data
      (by
        intro b hb
        obtain ⟨p, hp, rfl⟩ := List.mem_map.mp hb
        intro hmem
        rcases List.mem_append.mp hmem with h | h
        · exact (hname p hp).2 h
        · rcases List.mem_cons.mp h with h | h
          · exact absurd h (by decide)
          · exact not_mem_intToChars _ _ (by decide) (by decide) h)
      (by decide) (by decide)]
  rw [List.filterMap_append, List.filterMap_map]
  rw [filterMap_eq_map_of_some _ (fun p : List Char × ℤ => (p.1, p.2)) items
      (by
        intro p hp
        show processLinePair (p.1 ++ ',' :: intToChars p.2) = some (p.1, p.2)
        rw [processLinePair_pair p.1 (intToChars p.2) (hname p hp).1, toIntArduino_intToChars])]
  rw [show List.filterMap processLinePair ["Total".data] = [] from by decide]
  simp

/-! ## Claims -/

/-- C1 counterexample. The claim states `classify(x, 0) = Normal` for any
x and that a zero-or-negative budget never classifies as Low/Exhausted.
The code has no `budget <= 0` guard: with budget 0 and remaining −75
(spent 75), `(−75)/0 = −∞ ≤ 0`, so the classifier reports Exhausted
(`NoBudget`); with budget −100 and remaining −20 the percentage is 20,
so it reports Low (`LowBudget`). -/
theorem C1_counterexample :
    classify (-75) 0 = ThresholdState.Exhausted ∧
      classify (-20) (-100) = ThresholdState.Low := by
  constructor
  · decide
  · have h : ((-20 : ℚ)) / (-100) * 100 = 20 := by norm_num
    unfold classify classifySignal budgetPercentage fpDiv
    rw [if_neg (by norm_num : ¬((-100 : ℚ) = 0))]
    simp only [FpVal.scalePos, FpVal.leC, FpVal.gtC, h]
    norm_num

/-- C1 amended: the code has no division guard. With budget 0, a
non-negative remaining amount classifies Normal (NaN/+∞ comparisons are
all false) while a negative remaining amount classifies Exhausted
(−∞ ≤ 0); with a negative budget and a non-negative spent amount x
(remaining = budget − x), the percentage is ≥ 100 and the classifier
yields Normal. -/
theorem C1_zero_budget_behavior :
    (∀ r : ℚ, 0 ≤ r → classify r 0 = ThresholdState.Normal) ∧
    (∀ r : ℚ, r < 0 → classify r 0 = ThresholdState.Exhausted) ∧
    (∀ b x : ℚ, b < 0 → 0 ≤ x → classify (b - x) b = ThresholdState.Normal) := by
  refine ⟨?_, ?_, ?_⟩
  · intro r hr
    unfold classify classifySignal budgetPercentage fpDiv
    rcases eq_or_lt_of_le hr with heq | hpos
    · rw [if_pos rfl, if_pos heq.symm]
      rfl
    · rw [if_pos rfl, if_neg (ne_of_gt hpos), if_pos hpos]
      rfl
  · intro r hr
    unfold classify classifySignal budgetPercentage fpDiv
    rw [if_pos rfl, if_neg (ne_of_lt hr), if_neg (not_lt.mpr hr.le)]
    rfl
  · intro b x hb hx
    have hbne : b ≠ 0 := ne_of_lt hb
    have hxb : x / b ≤ 0 := div_nonpos_iff.mpr (Or.inl ⟨hx, hb.le⟩)
    have hquot : (1 : ℚ) ≤ (b - x) / b := by
      rw [sub_div, div_self hbne]
      linarith
    have hpct : (100 : ℚ) ≤ (b - x) / b * 100 := by
      have := mul_le_mul_of_nonneg_right hquot (by norm_num : (0 : ℚ) ≤ 100)
      linarith
    unfold classify classifySignal budgetPercentage fpDiv
    rw [if_neg hbne]
    simp only [FpVal.scalePos, FpVal.leC, FpVal.gtC]
    rw [if_neg (by simp only [Bool.and_eq_true, decide_eq_true_eq]; rintro ⟨h20, _⟩; linarith)]
    rw [if_neg (by simp only [decide_eq_true_eq]; intro h0; linarith)]

/-- Witness instantiating `C1_zero_budget_behavior` at concrete inputs. -/
theorem C1_zero_budget_behavior_witness :
    classify 5 0 = ThresholdState.Normal ∧
      classify (-1) 0 = ThresholdState.Exhausted ∧
      classify (-100 - 3) (-100) = ThresholdState.Normal :=
  ⟨C1_zero_budget_behavior.1 5 (by norm_num),
   C1_zero_budget_behavior.2.1 (-1) (by norm_num),
   C1_zero_budget_behavior.2.2 (-100) 3 (by norm_num) (by norm_num)⟩

/-- C2: for budget > 0 the classifier computes
`percentRemaining = remaining / budget * 100` and reports Low exactly for
`0 < percentRemaining ≤ 20`, Exhausted exactly for `percentRemaining ≤ 0`,
and Normal exactly otherwise (`percentRemaining > 20`). -/
theorem C2_classify_thresholds (r b : ℚ) (hb : 0 < b) :
    (classify r b = ThresholdState.Low ↔ (0 < r / b * 100 ∧ r / b * 100 ≤ 20)) ∧
    (classify r b = ThresholdState.Exhausted ↔ r / b * 100 ≤ 0) ∧
    (classify r b = ThresholdState.Normal ↔ 20 < r / b * 100) := by
  have hbne : b ≠ 0 := ne_of_gt hb
  unfold classify classifySignal budgetPercentage fpDiv
  rw [if_neg hbne]
  simp only [FpVal.scalePos, FpVal.leC, FpVal.gtC, Bool.and_eq_true, decide_eq_true_eq]
  by_cases h1 : r / b * 100 ≤ 20 <;> by_cases h2 : 0 < r / b * 100
  · rw [if_pos ⟨h1, h2⟩]
    exact ⟨⟨fun _ => ⟨h2, h1⟩, fun _ => rfl⟩,
      ⟨fun h => absurd h (by decide), fun h => absurd h (not_le.mpr h2)⟩,
      ⟨fun h => absurd h (by decide), fun h => absurd h (not_lt.mpr h1)⟩⟩
  · have hle : r / b * 100 ≤ 0 := not_lt.mp h2
    rw [if_neg (by rintro ⟨_, hh⟩; exact h2 hh), if_pos hle]
    exact ⟨⟨fun h => absurd h (by decide), fun hh => absurd hh.1 h2⟩,
      ⟨fun _ => hle, fun _ => rfl⟩,
      ⟨fun h => absurd h (by decide), fun h => absurd (le_trans hle (by norm_num)) (not_le.mpr h)⟩⟩
  · rw [if_neg (by rintro ⟨hh, _⟩; exact h1 hh),
      if_neg (fun hh => absurd hh (not_le.mpr h2))]
    exact ⟨⟨fun h => absurd h (by decide), fun hh => absurd hh.2 h1⟩,
      ⟨fun h => absurd h (by decide), fun hh => absurd hh (not_le.mpr h2)⟩,
      ⟨fun _ => not_le.mp h1, fun _ => rfl⟩⟩
  · exact absurd (le_trans (not_lt.mp h2) (by norm_num)) h1

/-- Witness instantiating `C2_classify_thresholds` at the spec's examples
(50, 15 and 0 remaining of a budget of 100). -/
theorem C2_classify_thresholds_witness :
    ((classify 50 100 = ThresholdState.Low ↔
        (0 < (50 : ℚ) / 100 * 100 ∧ (50 : ℚ) / 100 * 100 ≤ 20)) ∧
      (classify 50 100 = ThresholdState.Exhausted ↔ (50 : ℚ) / 100 * 100 ≤ 0) ∧
      (classify 50 100 = ThresholdState.Normal ↔ 20 < (50 : ℚ) / 100 * 100)) ∧
    ((classify 15 100 = ThresholdState.Low ↔
        (0 < (15 : ℚ) / 100 * 100 ∧ (15 : ℚ) / 100 * 100 ≤ 20)) ∧
      (classify 15 100 = ThresholdState.Exhausted ↔ (15 : ℚ) / 100 * 100 ≤ 0) ∧
      (classify 15 100 = ThresholdState.Normal ↔ 20 < (15 : ℚ) / 100 * 100)) ∧
    ((classify 0 100 = ThresholdState.Low ↔
        (0 < (0 : ℚ) / 100 * 100 ∧ (0 : ℚ) / 100 * 100 ≤ 20)) ∧
      (classify 0 100 = ThresholdState.Exhausted ↔ (0 : ℚ) / 100 * 100 ≤ 0) ∧
      (classify 0 100 = ThresholdState.Normal ↔ 20 < (0 : ℚ) / 100 * 100)) :=
  ⟨C2_classify_thresholds 50 100 (by norm_num),
   C2_classify_thresholds 15 100 (by norm_num),
   C2_classify_thresholds 0 100 (by norm_num)⟩

/-- C4: a remove decrements only a positive quantity; at quantity 0 it
reports `EmptyRemoval` and leaves every quantity and the total unchanged;
consequently no quantity is ever negative after any sequence of adds and
removes from the initial state. -/
theorem C4_remove_never_negative :
    (∀ (s : AtmegaState) (i : Fin numItems), 0 < s.itemCounts i →
        (removeItem s i).1.itemCounts i = s.itemCounts i - 1) ∧
    (∀ (s : AtmegaState) (i : Fin numItems), s.itemCounts i = 0 →
        (removeItem s i).1.itemCounts = s.itemCounts ∧
        (removeItem s i).1.totalPrice = s.totalPrice ∧
        (removeItem s i).2.2 = ScanEvent.emptyRemoval) ∧
    (∀ (ops : List CartOp) (i : Fin numItems),
        0 ≤ (runCartOps initialAtmegaState ops).itemCounts i) := by
  refine ⟨?_, ?_, ?_⟩
  · intro s i hpos
    unfold removeItem
    rw [if_pos hpos]
    simp [updateTotal]
  · intro s i hzero
    unfold removeItem
    rw [if_neg (by omega)]
    exact ⟨rfl, rfl, rfl⟩
  · intro ops i
    exact runCartOps_nonneg ops initialAtmegaState (fun _ => le_refl 0) i

/-- Witness instantiating `C4_remove_never_negative`: an empty removal at
the initial state, a real removal after one add, and non-negativity after
a remove-on-empty sequence. -/
theorem C4_remove_never_negative_witness :
    ((removeItem initialAtmegaState 0).1.itemCounts = initialAtmegaState.itemCounts ∧
      (removeItem initialAtmegaState 0).1.totalPrice = initialAtmegaState.totalPrice ∧
      (removeItem initialAtmegaState 0).2.2 = ScanEvent.emptyRemoval) ∧
    (removeItem (addItem initialAtmegaState 0).1 0).1.itemCounts 0 =
      (addItem initialAtmegaState 0).1.itemCounts 0 - 1 ∧
    0 ≤ (runCartOps initialAtmegaState [CartOp.remove 0]).itemCounts 0 :=
  ⟨C4_remove_never_negative.2.1 initialAtmegaState 0 rfl,
   C4_remove_never_negative.1 (addItem initialAtmegaState 0).1 0 (by decide),
   C4_remove_never_negative.2.2 [CartOp.remove 0] 0⟩

/-- C5: after any sequence of adds and removes from the initial state,
the stored cart total equals the exact weighted sum Σ price·quantity of
the current quantities. -/
theorem C5_total_no_drift (ops : List CartOp) :
    (runCartOps initialAtmegaState ops).totalPrice =
      cartTotal (runCartOps initialAtmegaState ops).itemCounts := by
  apply runCartOps_total
  simp [initialAtmegaState, cartTotal]

/-- C8: Remove mode reverts to Add once the dwell time (5000 ms) has
elapsed with no scan, and a recognized scan during Remove mode always
returns the mode to Add — whether the removal succeeded or hit the
empty-removal condition — while a scan in Add mode stays in Add (the
mode is consumed for exactly one item). -/
theorem C8_mode_machine :
    (∀ (s : AtmegaState) (btn : Bool) (now : ℕ),
        s.inRemoveMode = true → DWELL_MS < usub32 now s.buttonPressedTime →
        (checkButton s btn now).inRemoveMode = false) ∧
    (∀ (s : AtmegaState) (id : Fin 4 → ℕ) (i : Fin numItems),
        identifyItem id = some i → s.inRemoveMode = true →
        (processCard s id).1.inRemoveMode = false) ∧
    (∀ (s : AtmegaState) (id : Fin 4 → ℕ) (i : Fin numItems),
        identifyItem id = some i → s.inRemoveMode = false →
        (processCard s id).1.inRemoveMode = false) := by
  refine ⟨?_, ?_, ?_⟩
  · intro s btn now hmode helapsed
    simp [checkButton, hmode, helapsed]
  · intro s id i hid hmode
    unfold processCard
    rw [hid]
    simp only [hmode, if_true]
    unfold removeItem
    split_ifs <;> rfl
  · intro s id i hid hmode
    unfold processCard
    rw [hid]
    simp only [hmode]
    rw [if_neg (by simp)]
    unfold addItem updateTotal
    simp only
    exact hmode

/-- Witness instantiating `C8_mode_machine`: dwell expiry at 6000 ms
after entering Remove at 0 ms, and a recognized scan (the Milk tag) in
Remove and in Add mode. -/
theorem C8_mode_machine_witness :
    (checkButton { initialAtmegaState with inRemoveMode := true } false 6000).inRemoveMode
        = false ∧
    (processCard { initialAtmegaState with inRemoveMode := true }
        (itemUIDs 0)).1.inRemoveMode = false ∧
    (processCard initialAtmegaState (itemUIDs 0)).1.inRemoveMode = false :=
  ⟨C8_mode_machine.1 { initialAtmegaState with inRemoveMode := true } false 6000 rfl (by decide),
   C8_mode_machine.2.1 { initialAtmegaState with inRemoveMode := true } (itemUIDs 0) 0
     (by decide) rfl,
   C8_mode_machine.2.2 initialAtmegaState (itemUIDs 0) 0 (by decide) rfl⟩

/-- C10: scanning a tag that is not in the catalog changes nothing
observable: quantities, total and mode (including an active Remove mode)
are unchanged and no frame is sent to the peer. -/
theorem C10_unknown_tag_noop (s : AtmegaState) (id : Fin 4 → ℕ)
    (h : identifyItem id = none) :
    processCard s id = (s, none, ScanEvent.unknownItem) ∧
    (processCard s id).1.itemCounts = s.itemCounts ∧
    (processCard s id).1.totalPrice = s.totalPrice ∧
    (processCard s id).1.inRemoveMode = s.inRemoveMode ∧
    (processCard s id).2.1 = none := by
  unfold processCard
  rw [h]
  exact ⟨rfl, rfl, rfl, rfl, rfl⟩

/-- Witness instantiating `C10_unknown_tag_noop` at an all-zero UID while
Remove mode is active. -/
theorem C10_unknown_tag_noop_witness :
    processCard { initialAtmegaState with inRemoveMode := true } (fun _ => 0)
        = ({ initialAtmegaState with inRemoveMode := true }, none, ScanEvent.unknownItem) ∧
      (processCard { initialAtmegaState with inRemoveMode := true } (fun _ => 0)).1.itemCounts
        = ({ initialAtmegaState with inRemoveMode := true } : AtmegaState).itemCounts ∧
      (processCard { initialAtmegaState with inRemoveMode := true } (fun _ => 0)).1.totalPrice
        = ({ initialAtmegaState with inRemoveMode := true } : AtmegaState).totalPrice ∧
      (processCard { initialAtmegaState with inRemoveMode := true } (fun _ => 0)).1.inRemoveMode
        = ({ initialAtmegaState with inRemoveMode := true } : AtmegaState).inRemoveMode ∧
      (processCard { initialAtmegaState with inRemoveMode := true } (fun _ => 0)).2.1 = none :=
  C10_unknown_tag_noop { initialAtmegaState with inRemoveMode := true } (fun _ => 0) (by decide)

/-- C6: the encoded Update frame is `Update:` followed by exactly the
items with positive quantity, in catalog order, each as `<name>,<qty>;`,
followed by the `Total,<amount>` pair, which is last and not followed by
`;` (the frame does not end with the delimiter). -/
theorem C6_frame_format (counts : Fin numItems → ℤ) (total : ℚ) :
    sendStatusToESP counts total =
      updateTag ++
        ((((List.finRange numItems).filter (fun i => decide (0 < counts i))).map
          (fun i => itemNames i ++ ',' :: intToChars (counts i) ++ [';'])).flatten ++
        (totalTag ++ renderFloat2 total)) ∧
    (sendStatusToESP counts total).getLast? ≠ some ';' := by
  refine ⟨sendStatusToESP_eq counts total, ?_⟩
  rw [sendStatusToESP_eq counts total]
  obtain ⟨d, hd⟩ := renderFloat2_getLast total
  simp only [← List.append_assoc]
  rw [List.getLast?_append, hd]
  rw [show ∀ o : Option Char, (some (digitChar d)).or o = some (digitChar d) from fun o => rfl]
  intro heq
  exact digitChar_ne_semi d (Option.some.inj heq)

/-- C3: encoding the ledger snapshot (any quantities ≥ 0 over the
catalog, whose names contain neither `,` nor `;`) as an Update frame and
decoding that frame reproduces the same (item, quantity) pairs — the
quantity-0 items omitted — and a total text that parses back to the same
total amount. -/
theorem C3_encode_decode_roundtrip (counts : Fin numItems → ℤ)
    (_hpos : ∀ i, 0 ≤ counts i) :
    (itemsAndTotalOf (sendStatusToESP counts (cartTotal counts))).1 =
      ((List.finRange numItems).filter (fun i => decide (0 < counts i))).map
        (fun i => (itemNames i, counts i)) ∧
    toFloatArduino (itemsAndTotalOf (sendStatusToESP counts (cartTotal counts))).2 =
      cartTotal counts := by
  have hframe : sendStatusToESP counts (cartTotal counts)
      = updateTag ++
          (((((List.finRange numItems).filter (fun i => decide (0 < counts i))).map
              (fun i => (itemNames i, counts i))).map
            (fun p => p.1 ++ ',' :: intToChars p.2 ++ [';'])).flatten
            ++ (totalTag ++ renderFloat2 (cartTotal counts))) := by
    rw [sendStatusToESP_eq counts (cartTotal counts), List.map_map]
    rfl
  have hdec := itemsAndTotalOf_encoded
    ((((List.finRange numItems).filter (fun i => decide (0 < counts i))).map
        (fun i => (itemNames i, counts i))))
    (cartTotal counts)
    (by
      intro p hp
      obtain ⟨i, _, rfl⟩ := List.mem_map.mp hp
      exact ⟨itemNames_no_comma i, itemNames_no_semi i⟩)
  rw [hframe, hdec]
  refine ⟨rfl, ?_⟩
  rw [cartTotal_eq_int counts, toFloat_renderFloat2_int]

/-- Witness instantiating `C3_encode_decode_roundtrip` at the snapshot
(Milk 1, Egg 3, Butter 0, Chocolate 2). -/
theorem C3_encode_decode_roundtrip_witness :
    (itemsAndTotalOf (sendStatusToESP ![1, 3, 0, 2] (cartTotal ![1, 3, 0, 2]))).1 =
      ((List.finRange numItems).filter
          (fun i => decide (0 < (![1, 3, 0, 2] : Fin numItems → ℤ) i))).map
        (fun i => (itemNames i, (![1, 3, 0, 2] : Fin numItems → ℤ) i)) ∧
    toFloatArduino (itemsAndTotalOf (sendStatusToESP ![1, 3, 0, 2]
        (cartTotal ![1, 3, 0, 2]))).2 = cartTotal ![1, 3, 0, 2] :=
  C3_encode_decode_roundtrip ![1, 3, 0, 2] (by decide)

/-- C7: decoding degrades gracefully — a frame without the `Total,`
marker decodes to total 0 rather than an error; an item name outside the
catalog decodes to a zero unit price; and a frame containing an unknown
name is still fully processed (every pair is recovered). -/
theorem C7_graceful_decode :
    (∀ data : List Char, ¬ totalTag <:+: data → extractTotalAmount data = 0) ∧
    (∀ name : List Char, name ≠ "Milk".data → name ≠ "Egg".data →
        name ≠ "Butter".data → name ≠ "Chocolate".data → getItemPrice name = 0) ∧
    ((itemsAndTotalOf "Update:Cheese,2;Egg,1;Total,25.00".data).1 =
        [("Cheese".data, (2 : ℤ)), ("Egg".data, (1 : ℤ))] ∧
      getItemPrice "Cheese".data = 0) := by
  refine ⟨?_, ?_, ?_⟩
  · intro data h
    unfold extractTotalAmount
    cases heq : lastIndexOfStr totalTag data with
    | none => simp only [heq]
    | some p =>
      exfalso
      have hpre : totalTag <+: data.drop p :=
        List.isPrefixOf_iff_prefix.mp (lastIndexOfStr_isPrefixOf_drop totalTag data p heq)
      obtain ⟨t, ht⟩ := hpre
      obtain ⟨s, hs⟩ := List.drop_suffix p data
      exact h ⟨s, t, by rw [List.append_assoc, ht, hs]⟩
  · intro name h1 h2 h3 h4
    unfold getItemPrice
    rw [if_neg h1, if_neg h2, if_neg h3, if_neg h4]
  · exact ⟨by decide, by decide⟩

/-- Witness instantiating `C7_graceful_decode`: a frame with no `Total,`
marker and the unknown name `Cheese`. -/
theorem C7_graceful_decode_witness :
    extractTotalAmount "Egg,2".data = 0 ∧ getItemPrice "Cheese".data = 0 :=
  ⟨C7_graceful_decode.1 "Egg,2".data (by decide),
   C7_graceful_decode.2.1 "Cheese".data (by decide) (by decide) (by decide) (by decide)⟩

/-- C9: on every decoded Update frame, the server updates its remaining
budget to (configured budget − decoded total), the first line it sends
back is the `Budget:` frame carrying that remaining amount, and the
scanner, which accepts any line starting with `Budget:`, overwrites its
stored budget with exactly that amount (stated for cent-exact amounts,
where the two-decimal rendering is lossless). -/
theorem C9_budget_feedback (st : EspState) (s : AtmegaState) (data : List Char)
    (zb zt : ℤ) (hb : st.totalBudget = (zb : ℚ) / 100)
    (ht : extractTotalAmount data = (zt : ℚ) / 100) :
    (handleItemUpdates st data).1.remainingBudget
        = st.totalBudget - extractTotalAmount data ∧
    (handleItemUpdates st data).2.head?
        = some ("Budget: ".data ++ renderFloat2 (st.totalBudget - extractTotalAmount data)) ∧
    (processEspLine s
        ("Budget: ".data ++ renderFloat2 (st.totalBudget - extractTotalAmount data))).budget
        = st.totalBudget - extractTotalAmount data := by
  refine ⟨rfl, rfl, ?_⟩
  have hline : "Budget: ".data ++ renderFloat2 (st.totalBudget - extractTotalAmount data)
      = "Budget:".data ++ (' ' :: renderFloat2 (st.totalBudget - extractTotalAmount data)) := rfl
  have hdrop : ("Budget:".data
        ++ (' ' :: renderFloat2 (st.totalBudget - extractTotalAmount data))).drop 7
      = ' ' :: renderFloat2 (st.totalBudget - extractTotalAmount data) := by
    rw [show (7 : ℕ) = ("Budget:".data).length from rfl]
    exact List.drop_left _ _
  have hsub : st.totalBudget - extractTotalAmount data = ((zb - zt : ℤ) : ℚ) / 100 := by
    rw [hb, ht]
    push_cast
    ring
  unfold processEspLine
  rw [hline, if_pos (List.isPrefixOf_iff_prefix.mpr (List.prefix_append _ _))]
  simp only [hdrop, toFloat_cons_space]
  rw [hsub, toFloat_renderFloat2]

/-- Witness instantiating `C9_budget_feedback`: budget 100.00 kr, frame
`Update:Egg,3;Total,75.00` (payload after the prefix), remaining 25.00. -/
theorem C9_budget_feedback_witness :
    (handleItemUpdates ⟨100, 100⟩ "Egg,3;Total,75.00".data).1.remainingBudget
        = (⟨100, 100⟩ : EspState).totalBudget
            - extractTotalAmount "Egg,3;Total,75.00".data ∧
    (handleItemUpdates ⟨100, 100⟩ "Egg,3;Total,75.00".data).2.head?
        = some ("Budget: ".data ++ renderFloat2 ((⟨100, 100⟩ : EspState).totalBudget
            - extractTotalAmount "Egg,3;Total,75.00".data)) ∧
    (processEspLine initialAtmegaState
        ("Budget: ".data ++ renderFloat2 ((⟨100, 100⟩ : EspState).totalBudget
            - extractTotalAmount "Egg,3;Total,75.00".data))).budget
        = (⟨100, 100⟩ : EspState).totalBudget
            - extractTotalAmount "Egg,3;Total,75.00".data := by
  have h1 : lastIndexOfStr totalTag "Egg,3;Total,75.00".data = some 6 := by decide
  have h2 : ("Egg,3;Total,75.00".data).drop (6 + 6) = "75.00".data := by decide
  have hextract : extractTotalAmount "Egg,3;Total,75.00".data = ((7500 : ℤ) : ℚ) / 100 := by
    simp only [extractTotalAmount, h1, h2]
    have h3 : skipWs "75.00".data = "75.00".data := by decide
    have h4 : signSplit "75.00".data = (false, "75.00".data) := by decide
    have h5 : ("75.00".data).takeWhile isDigitC = "75".data := by decide
    have h6 : ("75.00".data).dropWhile isDigitC = ".00".data := by decide
    have h7 : fracPart ".00".data = "00".data := by decide
    have h8 : parseNat "75".data = 75 := by decide
    have h9 : parseNat "00".data = 0 := by decide
    have h10 : ("00".data).length = 2 := by decide
    simp only [toFloatArduino, h3, h4, h5, h6, h7, h8, h9, h10]
    norm_num
  exact C9_budget_feedback ⟨100, 100⟩ initialAtmegaState "Egg,3;Total,75.00".data 10000 7500
    (show (100 : ℚ) = ((10000 : ℤ) : ℚ) / 100 by norm_num) hextract

end BudgetBasket
